import Mathlib

/-!
# Verification of the stockbroker application core

Shallow embedding of `src/stockbroker.py`: the `TradeBook` record and its
CSV (de)serialization, the `StockCodeService` registry, the `TradeValidator`
rules, the `TradeBookService` store (load / save / find / process), and the
`CommandProcessor`.

Modelling conventions:
* Python `float` prices are modelled as exact rationals `ℚ`.  The design
  mandates a decimal representation free of binary-float artifacts, and the
  binary-float reference behavior coincides with the exact-decimal one on
  decimal literals with at most two fractional digits.  Python `round(x, 2)`
  and the `:.2f` format directive round half to even, modelled by `rhe`.
* Python `int` is modelled as `ℤ` (arbitrary precision in both).
* Files are modelled by their list of lines; a file access outcome is a
  `FileSource` (present with lines / missing / unreadable), matching the
  exception cases of `open` (`FileNotFoundError` vs. other `OSError`s).
* A Python function that can raise an uncaught exception returns `Option`
  (`none` = the exception propagates, fatal for this program).
* `str.isupper`/`str.isalpha`/`str.strip`/whitespace are taken in their
  ASCII fragment, matching `Char.isUpper`/`Char.isAlpha`/`Char.isWhitespace`.
* The numeric-literal fragment of Python `float(...)` / `int(...)` accepted
  here is sign + digits with an optional decimal point (exponents, `inf`,
  `nan` and digit-group underscores are not modelled; no claim depends on
  them).
-/

namespace Stockbroker

/-! ## Character-level helpers (Python string primitives) -/

/-- `str.strip` on a character list: drop whitespace at both ends. -/
def trimList (cs : List Char) : List Char :=
  ((cs.dropWhile Char.isWhitespace).reverse.dropWhile Char.isWhitespace).reverse

/-- `str.strip` at `String` level. -/
def pyStrip (s : String) : String :=
  ⟨trimList s.data⟩

/-- Python `s.split(sep)` for a single-character separator: splits at every
occurrence, keeping empty fields (`",".split(",") == ["", ""]`). -/
def splitOnChar (sep : Char) (cs : List Char) : List (List Char) :=
  match cs with
  | [] => [[]]
  | c :: rest =>
    match splitOnChar sep rest with
    | [] => [[]]
    | t :: ts => if c = sep then [] :: t :: ts else (c :: t) :: ts

/-- One `foldr` step for whitespace splitting: a whitespace character closes
the current token. -/
def splitWsStep (c : Char) (acc : List (List Char)) : List (List Char) :=
  if c.isWhitespace then [] :: acc
  else
    match acc with
    | [] => [[c]]
    | t :: ts => (c :: t) :: ts

/-- Python `s.split()` (no argument): split on whitespace runs, discarding
empty tokens. -/
def pySplitWs (s : String) : List String :=
  ((s.data.foldr splitWsStep []).filter (fun t => t ≠ [])).map String.mk

/-- `str.isupper` (ASCII fragment): at least one cased character and no
cased character is lowercase; for ASCII the cased characters are exactly
the letters. -/
def py_isupper (s : String) : Bool :=
  s.data.any (fun c => c.isAlpha) && s.data.all (fun c => !c.isAlpha || c.isUpper)

/-- `str.isalpha` (ASCII fragment): non-empty and all alphabetic. -/
def py_isalpha (s : String) : Bool :=
  !s.data.isEmpty && s.data.all (fun c => c.isAlpha)

/-! ## Decimal rendering and parsing -/

/-- The decimal digit character for `n < 10`. -/
def digitChar (n : ℕ) : Char :=
  Char.ofNat (48 + n)

/-- Value of a (little-endian-fold) digit string, most significant first:
`digitsVal ['4','2'] = 42`.  Non-digit characters are never fed to it by
the parsers below. -/
def digitsVal (cs : List Char) : ℕ :=
  cs.foldl (fun n c => 10 * n + (c.toNat - 48)) 0

/-- Fuelled decimal rendering of a natural number, most significant digit
first.  The fuel only serves structural termination; `renderNat` supplies
enough of it. -/
def renderNatAux : ℕ → ℕ → List Char
  | 0, _ => []
  | fuel + 1, n =>
    if n < 10 then [digitChar n]
    else renderNatAux fuel (n / 10) ++ [digitChar (n % 10)]

/-- Decimal rendering of a natural number (Python `str(n)` for `n ≥ 0`). -/
def renderNat (n : ℕ) : List Char :=
  renderNatAux (n + 1) n

/-- Decimal rendering of an integer (Python `str(v)` / `f"{v}"`). -/
def renderInt (v : ℤ) : List Char :=
  if v < 0 then '-' :: renderNat v.natAbs else renderNat v.natAbs

/-- Two-digit zero-padded rendering, for the fractional part of `:.2f`. -/
def pad2 (m : ℕ) : List Char :=
  if m < 10 then ['0', digitChar m] else renderNat m

/-- Strip one optional leading sign, returning (isNegative, rest). -/
def splitSign (cs : List Char) : Bool × List Char :=
  match cs with
  | [] => (false, [])
  | c :: rest =>
    if c = '-' then (true, rest)
    else if c = '+' then (false, rest) else (false, cs)

/-- Python `int(s)` on the decimal fragment: optional surrounding
whitespace, optional sign, then a non-empty digit string. -/
def parseIntChars (cs : List Char) : Option ℤ :=
  let t := trimList cs
  let sr := splitSign t
  if !sr.2.isEmpty && sr.2.all Char.isDigit then
    some (if sr.1 then -(digitsVal sr.2 : ℤ) else (digitsVal sr.2 : ℤ))
  else none

/-- Python `float(s)` on the decimal fragment: optional surrounding
whitespace, optional sign, digits with at most one decimal point and at
least one digit overall (`"1."` and `".5"` are accepted). -/
def parseFloatChars (cs : List Char) : Option ℚ :=
  let t := trimList cs
  let sr := splitSign t
  let sgn : ℚ → ℚ := fun q => if sr.1 then -q else q
  match splitOnChar '.' sr.2 with
  | [ip] =>
    if !ip.isEmpty && ip.all Char.isDigit then some (sgn (digitsVal ip)) else none
  | [ip, fp] =>
    if !(ip ++ fp).isEmpty && (ip ++ fp).all Char.isDigit then
      some (sgn ((digitsVal ip : ℚ) + (digitsVal fp : ℚ) / (10 : ℚ) ^ fp.length))
    else none
  | _ => none

/-! ## Rounding (Python `round(x, 2)` and `:.2f`) -/

/-- Floor of a rational, computed from the normalized numerator/denominator
(`Int.fdiv` is floor division). -/
def ratFloor (q : ℚ) : ℤ :=
  Int.fdiv q.num (q.den : ℤ)

/-- Round half to even to the nearest integer — the tie-breaking rule of
Python `round` and of `float` formatting. -/
def rhe (q : ℚ) : ℤ :=
  if q - (ratFloor q : ℚ) < 1 / 2 then ratFloor q
  else if 1 / 2 < q - (ratFloor q : ℚ) then ratFloor q + 1
  else if ratFloor q % 2 = 0 then ratFloor q else ratFloor q + 1

/-- Python `round(p, 2)` on the exact-decimal model. -/
def pyRound2 (p : ℚ) : ℚ :=
  (rhe (100 * p) : ℚ) / 100

/-- Python `f"{p:.2f}"`: round to hundredths half-to-even, render with
exactly two fractional digits.  (The `"-0.00"` negative-zero artifact of
float formatting is not modelled; no stored price is negative.) -/
def formatPrice (p : ℚ) : List Char :=
  (if rhe (100 * p) < 0 then ['-'] else ([] : List Char)) ++
    renderNat ((rhe (100 * p)).natAbs / 100) ++ '.' :: pad2 ((rhe (100 * p)).natAbs % 100)

/-! ## `TradeBook` (class `TradeBook`) -/

/-- One trade book entry: `TradeBook.__init__`. -/
structure TradeBook where
  action : String
  stock_code : String
  price : ℚ
  volume : ℤ
  deriving DecidableEq, Repr

/-- `TradeBook.__eq__`: equality on action, stock code and price; volume is
excluded (it is the aggregated payload). -/
def tbEq (b₁ b₂ : TradeBook) : Bool :=
  decide (b₁.action = b₂.action) && decide (b₁.stock_code = b₂.stock_code)
    && decide (b₁.price = b₂.price)

/-- `TradeBook.to_csv_line`:
`f"{action},{stock_code},{price:.2f},{volume}"`. -/
def to_csv_line (b : TradeBook) : String :=
  String.mk (b.action.data ++ ',' :: (b.stock_code.data ++ ',' ::
    (formatPrice b.price ++ ',' :: renderInt b.volume)))

/-- `TradeBook.from_csv_line`: strip the line, split on commas, require
exactly four fields, parse price as float and volume as int.  `none` models
the `ValueError` the Python code raises on any of these failures. -/
def from_csv_line (line : String) : Option TradeBook :=
  match splitOnChar ',' (trimList line.data) with
  | [a, c, p, v] =>
    match parseFloatChars p, parseIntChars v with
    | some pq, some vi => some ⟨String.mk a, String.mk c, pq, vi⟩
    | _, _ => none
  | _ => none

/-! ## File access outcomes -/

/-- Outcome of opening a text file, as the lines it holds.  `missing`
raises `FileNotFoundError` in Python; `unreadable` stands for any other
`OSError` (e.g. `PermissionError`), which this program never catches. -/
inductive FileSource where
  | present (lines : List String)
  | missing
  | unreadable
  deriving DecidableEq

/-! ## `StockCodeService` -/

/-- `StockCodeService.load_stock_codes`: read codes one per line, strip,
skip empty lines.  Only `FileNotFoundError` is caught (empty set plus a
printed warning, modelled by the `Bool` flag); any other error propagates
(`none`).  The Python `set` is modelled by the list of loaded codes, which
is used only for membership. -/
def load_stock_codes : FileSource → Option (List String × Bool)
  | .present lines => some ((lines.map pyStrip).filter (fun c => c ≠ ""), false)
  | .missing => some ([], true)
  | .unreadable => none

/-- `StockCodeService.is_valid_stock_code`: membership in the loaded set. -/
def is_valid_stock_code (stock_codes : List String) (stock_code : String) : Bool :=
  stock_codes.contains stock_code

/-! ## `TradeValidator` -/

/-- `TradeValidator.validate_action`: `action in ["buy", "sell"]`. -/
def validate_action (action : String) : Bool :=
  decide (action = "buy") || decide (action = "sell")

/-- `TradeValidator.validate_stock_code`: non-empty, length 4, `isupper`
and `isalpha`, and present in the stock code service's set. -/
def validate_stock_code (stock_codes : List String) (stock_code : String) : Bool :=
  if stock_code.data.isEmpty = true ∨ stock_code.length ≠ 4 then false
  else if ¬(py_isupper stock_code = true) ∨ ¬(py_isalpha stock_code = true) then false
  else is_valid_stock_code stock_codes stock_code

/-- `TradeValidator.validate_price`: `price >= 0.50 and round(price, 2) == price`. -/
def validate_price (price : ℚ) : Bool :=
  decide ((0.50 : ℚ) ≤ price) && decide (pyRound2 price = price)

/-- `TradeValidator.validate_volume`: `1 <= volume <= 1000000`. -/
def validate_volume (volume : ℤ) : Bool :=
  decide (1 ≤ volume) && decide (volume ≤ 1000000)

/-- The fixed validator error messages. -/
def actionMsg : String := "Invalid action. Must be 'buy' or 'sell'."

/-- Stock-code failure message (same for format and membership failures). -/
def stockCodeMsg : String :=
  "Invalid stock code. Must be 4 uppercase letters and exist in stockcode.csv."

/-- Price failure message. -/
def priceMsg : String :=
  "Invalid price. Must be a number with 2 decimal places and >= 0.50."

/-- Volume failure message. -/
def volumeMsg : String := "Invalid volume. Must be between 1 and 1,000,000."

/-- `TradeValidator.validate_trade`: run the four rules in order,
short-circuiting at the first failure with that rule's message. -/
def validate_trade (stock_codes : List String) (action stock_code : String)
    (price : ℚ) (volume : ℤ) : Bool × String :=
  if !validate_action action then (false, actionMsg)
  else if !validate_stock_code stock_codes stock_code then (false, stockCodeMsg)
  else if !validate_price price then (false, priceMsg)
  else if !validate_volume volume then (false, volumeMsg)
  else (true, "")

/-! ## `TradeBookService` -/

/-- The service state: the in-memory list `trade_books` and the lines of
the orders file it persists to. -/
structure StoreState where
  books : List TradeBook
  file : List String
  deriving DecidableEq

/-- The line-parsing loop of `TradeBookService.load_trade_books`: strip
each line, skip empty ones, parse the rest; any parse error aborts the
whole load (`none` = uncaught `ValueError`). -/
def parseLines : List String → Option (List TradeBook)
  | [] => some []
  | l :: ls =>
    let s := pyStrip l
    if s = "" then parseLines ls
    else
      match from_csv_line s, parseLines ls with
      | some b, some bs => some (b :: bs)
      | _, _ => none

/-- `TradeBookService.load_trade_books`: a missing orders file yields an
empty collection (not an error); a malformed line is fatal. -/
def load_trade_books : FileSource → Option (List TradeBook)
  | .present lines => parseLines lines
  | .missing => some []
  | .unreadable => none

/-- `TradeBookService.save_trade_books`: overwrite the destination with one
CSV line per record, in collection order. -/
def save_trade_books (s : StoreState) : StoreState :=
  { s with file := s.books.map to_csv_line }

/-- `TradeBookService.find_trade_book`: linear scan for the first record
`__eq__` to the search book `TradeBook(action, stock_code, price, 0)`. -/
def find_trade_book (books : List TradeBook) (action stock_code : String)
    (price : ℚ) : Option TradeBook :=
  books.find? (fun b => tbEq b ⟨action, stock_code, price, 0⟩)

/-- The in-place `existing_book.volume += volume` of `process_trade`: bump
the volume of the first record matching the identity key. -/
def bumpFirst (books : List TradeBook) (action stock_code : String)
    (price : ℚ) (volume : ℤ) : List TradeBook :=
  match books with
  | [] => []
  | b :: rest =>
    if tbEq b ⟨action, stock_code, price, 0⟩ then
      { b with volume := b.volume + volume } :: rest
    else b :: bumpFirst rest action stock_code price volume

/-- `TradeBookService.process_trade`: merge into the found record or append
a new one, then persist synchronously via `save_trade_books`, returning the
outcome message. -/
def process_trade (s : StoreState) (action stock_code : String) (price : ℚ)
    (volume : ℤ) : String × StoreState :=
  match find_trade_book s.books action stock_code price with
  | some _ =>
    ("Trade book updated.",
      save_trade_books { s with books := bumpFirst s.books action stock_code price volume })
  | none =>
    ("Trade book added.",
      save_trade_books { s with books := s.books ++ [⟨action, stock_code, price, volume⟩] })

/-! ## `CommandProcessor` -/

/-- The whole-system state a `CommandProcessor` closes over: the loaded
registry and the trade book service. -/
structure SysState where
  codes : List String
  store : StoreState
  deriving DecidableEq

/-- Format message for a wrong token count. -/
def formatMsg : String :=
  "Invalid command. Format: [buy|sell] [STOCKCODE] [PRICE] [VOLUME]"

/-- Message for an unparsable price or volume token (same for both). -/
def numberMsg : String :=
  "Invalid command. Price must be a decimal number and volume must be an integer."

/-- `CommandProcessor.process_command`: split on whitespace, require four
tokens, parse price and volume, validate, and only then call the store's
`process_trade`. -/
def process_command (st : SysState) (command : String) : String × SysState :=
  match pySplitWs (pyStrip command) with
  | [action, stock_code, price_str, volume_str] =>
    match parseFloatChars price_str.data, parseIntChars volume_str.data with
    | some price, some volume =>
      match validate_trade st.codes action stock_code price volume with
      | (true, _) =>
        let r := process_trade st.store action stock_code price volume
        (r.1, { st with store := r.2 })
      | (false, msg) => (msg, st)
    | _, _ => (numberMsg, st)
  | _ => (formatMsg, st)

/-- Whether a command passes every check before the store call: four
tokens, parsable price and volume, and a passing `validate_trade`. -/
def command_accepted (st : SysState) (command : String) : Bool :=
  match pySplitWs (pyStrip command) with
  | [action, stock_code, price_str, volume_str] =>
    match parseFloatChars price_str.data, parseIntChars volume_str.data with
    | some price, some volume => (validate_trade st.codes action stock_code price volume).1
    | _, _ => false
  | _ => false

/-! ## Spec-side notions used by the claims -/

/-- §3 TradeRecord of the design: action is buy/sell, the stock code is
four uppercase ASCII letters, the price is at least 0.50 with at most two
fractional decimal digits; the volume is any integer. -/
def ValidRecord (b : TradeBook) : Prop :=
  (b.action = "buy" ∨ b.action = "sell") ∧
  b.stock_code.length = 4 ∧
  (∀ ch ∈ b.stock_code.data, ch.isUpper = true) ∧
  (1 / 2 : ℚ) ≤ b.price ∧ (100 * b.price).den = 1

instance : DecidablePred ValidRecord := fun b => by
  unfold ValidRecord; infer_instance

/-- At most one stored record per identity `(action, stock_code, price)`:
the records are pairwise non-`__eq__`. -/
def NoDupIdent (books : List TradeBook) : Prop :=
  books.Pairwise (fun b₁ b₂ => tbEq b₁ b₂ = false)

/-- A sequence of `process_trade` calls, each given by the record holding
its four arguments: how a batch of accepted orders acts on the store. -/
def applyOps (s : StoreState) (ops : List TradeBook) : StoreState :=
  ops.foldl (fun st op => (process_trade st op.action op.stock_code op.price op.volume).2) s

/-! ## Lemmas: characters and digit strings -/

theorem digitChar_toNat {n : ℕ} (h : n < 10) : (digitChar n).toNat = 48 + n := by
  interval_cases n <;> decide

theorem digitChar_isDigit {n : ℕ} (h : n < 10) : (digitChar n).isDigit = true := by
  interval_cases n <;> decide

theorem ws_char_cases {c : Char} (h : c.isWhitespace = true) :
    c = ' ' ∨ c = '\t' ∨ c = '\r' ∨ c = '\n' := by
  have h' := h
  simp only [Char.isWhitespace, Bool.or_eq_true, decide_eq_true_eq] at h'
  tauto

theorem isDigit_not_ws {c : Char} (h : c.isDigit = true) : c.isWhitespace = false := by
  rcases hw : c.isWhitespace with _ | _
  · rfl
  · rcases ws_char_cases hw with rfl | rfl | rfl | rfl <;> exact absurd h (by decide)

theorem isDigit_ne {c : Char} (h : c.isDigit = true) {d : Char}
    (hd : d.isDigit = false) : c ≠ d := by
  intro hcd; rw [hcd, hd] at h; cases h

theorem digitsVal_append (xs : List Char) (c : Char) :
    digitsVal (xs ++ [c]) = 10 * digitsVal xs + (c.toNat - 48) := by
  simp [digitsVal, List.foldl_append]

theorem renderNatAux_spec :
    ∀ fuel n, n < fuel →
      (∀ c ∈ renderNatAux fuel n, c.isDigit = true) ∧
      digitsVal (renderNatAux fuel n) = n ∧ renderNatAux fuel n ≠ [] := by
  intro fuel
  induction fuel with
  | zero => intro n h; omega
  | succ f ih =>
    intro n h
    by_cases h10 : n < 10
    · refine ⟨?_, ?_, ?_⟩ <;> simp [renderNatAux, h10, digitsVal]
      · exact digitChar_isDigit h10
      · rw [digitChar_toNat h10]; omega
    · have hdiv : n / 10 < f := by
        have h1 : n / 10 < n := Nat.div_lt_self (by omega) (by omega)
        omega
      obtain ⟨ihd, ihv, ihne⟩ := ih (n / 10) hdiv
      have heq : renderNatAux (f + 1) n
          = renderNatAux f (n / 10) ++ [digitChar (n % 10)] := by
        simp [renderNatAux, h10]
      refine ⟨?_, ?_, ?_⟩
      · intro c hc
        rw [heq] at hc
        rcases List.mem_append.mp hc with hc | hc
        · exact ihd c hc
        · rcases List.mem_singleton.mp hc with rfl
          exact digitChar_isDigit (Nat.mod_lt _ (by omega))
      · rw [heq, digitsVal_append, ihv, digitChar_toNat (Nat.mod_lt _ (by omega))]
        omega
      · rw [heq]; simp

theorem renderNat_digits (n : ℕ) : ∀ c ∈ renderNat n, c.isDigit = true :=
  (renderNatAux_spec (n + 1) n (by omega)).1

theorem digitsVal_renderNat (n : ℕ) : digitsVal (renderNat n) = n :=
  (renderNatAux_spec (n + 1) n (by omega)).2.1

theorem renderNat_ne_nil (n : ℕ) : renderNat n ≠ [] :=
  (renderNatAux_spec (n + 1) n (by omega)).2.2

theorem pad2_digits {m : ℕ} : ∀ c ∈ pad2 m, c.isDigit = true := by
  intro c hc
  unfold pad2 at hc
  split at hc
  · rcases List.mem_cons.mp hc with rfl | hc
    · decide
    · rcases List.mem_singleton.mp hc with rfl
      exact digitChar_isDigit (by omega)
  · exact renderNat_digits m c hc

theorem digitsVal_pad2 {m : ℕ} (h : m < 100) : digitsVal (pad2 m) = m := by
  unfold pad2
  split
  · next h10 => simp [digitsVal]; rw [digitChar_toNat h10]; omega
  · exact digitsVal_renderNat m

theorem renderNatAux_stable :
    ∀ f₁ f₂ n, n < f₁ → n < f₂ → renderNatAux f₁ n = renderNatAux f₂ n := by
  intro f₁
  induction f₁ with
  | zero => intro f₂ n h1 _; omega
  | succ f ih =>
    intro f₂ n h1 h2
    cases f₂ with
    | zero => omega
    | succ g =>
      by_cases h10 : n < 10
      · simp [renderNatAux, h10]
      · have hn : 0 < n := by omega
        have hdiv : n / 10 < n := Nat.div_lt_self hn (by omega)
        have hf : n / 10 < f := by omega
        have hg : n / 10 < g := by omega
        simp [renderNatAux, h10, ih g (n / 10) hf hg]

theorem renderNat_two_digits {m : ℕ} (h10 : 10 ≤ m) (h : m < 100) :
    renderNat m = [digitChar (m / 10), digitChar (m % 10)] := by
  have h1 : renderNat m = renderNatAux m (m / 10) ++ [digitChar (m % 10)] := by
    unfold renderNat
    simp [renderNatAux, Nat.not_lt.mpr h10]
  have hfuel : m / 10 < m := Nat.div_lt_self (by omega) (by omega)
  have h2 : renderNatAux m (m / 10) = renderNatAux (m / 10 + 1) (m / 10) :=
    renderNatAux_stable m (m / 10 + 1) (m / 10) hfuel (by omega)
  have h3 : renderNatAux (m / 10 + 1) (m / 10) = [digitChar (m / 10)] := by
    have : m / 10 < 10 := by omega
    simp [renderNatAux, this]
  rw [h1, h2, h3]
  rfl

theorem pad2_length {m : ℕ} (h : m < 100) : (pad2 m).length = 2 := by
  unfold pad2
  split
  · rfl
  · next h10 => rw [renderNat_two_digits (Nat.not_lt.mp h10) h]; rfl

/-! ## Lemmas: trim, sign, split -/

theorem dropWhile_eq_self_of {p : Char → Bool} {cs : List Char}
    (h : ∀ c ∈ cs, p c = false) : cs.dropWhile p = cs := by
  cases cs with
  | nil => rfl
  | cons c rest => simp [List.dropWhile_cons, h c (List.mem_cons_self c rest)]

theorem trimList_eq_self {cs : List Char}
    (h : ∀ c ∈ cs, c.isWhitespace = false) : trimList cs = cs := by
  unfold trimList
  rw [dropWhile_eq_self_of h, dropWhile_eq_self_of, List.reverse_reverse]
  intro c hc
  exact h c (List.mem_reverse.mp hc)

theorem splitSign_of_digits {cs : List Char}
    (h : ∀ c ∈ cs, c.isDigit = true) : splitSign cs = (false, cs) := by
  cases cs with
  | nil => rfl
  | cons c rest =>
    have hc := h c (List.mem_cons_self c rest)
    have h1 : ¬(c = '-') := isDigit_ne hc (by decide)
    have h2 : ¬(c = '+') := isDigit_ne hc (by decide)
    simp [splitSign, h1, h2]

theorem splitOnChar_ne_nil (sep : Char) (cs : List Char) :
    splitOnChar sep cs ≠ [] := by
  cases cs with
  | nil => simp [splitOnChar]
  | cons c rest =>
    unfold splitOnChar
    cases splitOnChar sep rest with
    | nil => simp
    | cons t ts =>
      by_cases hc : c = sep <;> simp [hc]

theorem splitOnChar_sepFree {sep : Char} {cs : List Char}
    (h : ∀ c ∈ cs, ¬(c = sep)) : splitOnChar sep cs = [cs] := by
  induction cs with
  | nil => rfl
  | cons c rest ih =>
    have hrest : splitOnChar sep rest = [rest] :=
      ih (fun c hc => h c (List.mem_cons_of_mem _ hc))
    unfold splitOnChar
    rw [hrest]
    simp [h c (List.mem_cons_self c rest)]

theorem splitOnChar_append {sep : Char} {cs₁ cs₂ : List Char}
    (h : ∀ c ∈ cs₁, ¬(c = sep)) :
    splitOnChar sep (cs₁ ++ sep :: cs₂) = cs₁ :: splitOnChar sep cs₂ := by
  induction cs₁ with
  | nil =>
    rcases hne : splitOnChar sep cs₂ with _ | ⟨t, ts⟩
    · exact absurd hne (splitOnChar_ne_nil sep cs₂)
    · simp [splitOnChar, hne]
  | cons c rest ih =>
    have hrest := ih (fun x hx => h x (List.mem_cons_of_mem _ hx))
    show splitOnChar sep (c :: (rest ++ sep :: cs₂)) = (c :: rest) :: splitOnChar sep cs₂
    rcases hne : splitOnChar sep cs₂ with _ | ⟨t, ts⟩
    · exact absurd hne (splitOnChar_ne_nil sep cs₂)
    · rw [hne] at hrest
      simp [splitOnChar, hrest, hne, h c (List.mem_cons_self c rest)]

/-! ## Lemmas: integer and price round trips -/

theorem all_digits_renderNat (n : ℕ) : (renderNat n).all Char.isDigit = true :=
  List.all_eq_true.mpr (renderNat_digits n)

theorem isEmpty_renderNat (n : ℕ) : (renderNat n).isEmpty = false := by
  rcases hr : renderNat n with _ | ⟨c, cs⟩
  · exact absurd hr (renderNat_ne_nil n)
  · rfl

theorem trimList_renderNat (n : ℕ) : trimList (renderNat n) = renderNat n :=
  trimList_eq_self (fun c hc => isDigit_not_ws (renderNat_digits _ c hc))

theorem parseIntChars_renderInt (v : ℤ) : parseIntChars (renderInt v) = some v := by
  by_cases hv : v < 0
  · have htrim : trimList ('-' :: renderNat v.natAbs) = '-' :: renderNat v.natAbs := by
      apply trimList_eq_self
      intro c hc
      rcases List.mem_cons.mp hc with rfl | hc
      · decide
      · exact isDigit_not_ws (renderNat_digits _ c hc)
    have hsign : splitSign ('-' :: renderNat v.natAbs) = (true, renderNat v.natAbs) := by
      simp [splitSign]
    simp only [parseIntChars, renderInt, if_pos hv, htrim, hsign, isEmpty_renderNat,
      all_digits_renderNat, Bool.not_false, Bool.and_self, if_true, digitsVal_renderNat]
    congr 1
    omega
  · have hsign : splitSign (renderNat v.natAbs) = (false, renderNat v.natAbs) :=
      splitSign_of_digits (fun c hc => renderNat_digits _ c hc)
    simp only [parseIntChars, renderInt, if_neg hv, trimList_renderNat, hsign,
      isEmpty_renderNat, all_digits_renderNat, Bool.not_false, Bool.and_self, if_true,
      digitsVal_renderNat, if_false, Bool.false_eq_true]
    congr 1
    omega

/-! ## Lemmas: rounding and price formatting -/

theorem rhe_den_one {q : ℚ} (h : q.den = 1) : rhe q = q.num := by
  have hq : (q.num : ℚ) = q := (Rat.den_eq_one_iff q).mp h
  have hfl : ratFloor q = q.num := by
    unfold ratFloor
    rw [h]
    exact Int.fdiv_one q.num
  unfold rhe
  rw [hfl, hq]
  simp

theorem num_hundred_mul {p : ℚ} (h : (100 * p).den = 1) :
    ((100 * p).num : ℚ) = 100 * p :=
  (Rat.den_eq_one_iff _).mp h

theorem formatPrice_eval {p : ℚ} (hden : (100 * p).den = 1) (hpos : 0 ≤ p) :
    formatPrice p
      = renderNat ((100 * p).num.natAbs / 100) ++ '.' :: pad2 ((100 * p).num.natAbs % 100) := by
  have hnum : rhe (100 * p) = (100 * p).num := rhe_den_one hden
  have hge : 0 ≤ (100 * p).num := Rat.num_nonneg.mpr (by positivity)
  unfold formatPrice
  rw [hnum, if_neg (by omega)]
  rfl

theorem parseFloatChars_formatPrice {p : ℚ} (hden : (100 * p).den = 1)
    (hpos : 0 ≤ p) : parseFloatChars (formatPrice p) = some p := by
  set m : ℕ := (100 * p).num.natAbs with hm
  have hge : 0 ≤ (100 * p).num := Rat.num_nonneg.mpr (by positivity)
  have hmp : ((m : ℕ) : ℚ) = 100 * p := by
    have h1 : ((100 * p).num.natAbs : ℤ) = (100 * p).num := Int.natAbs_of_nonneg hge
    rw [hm]
    rw [show ((100 * p).num.natAbs : ℚ) = (((100 * p).num.natAbs : ℤ) : ℚ) from
      (Int.cast_natCast _).symm]
    rw [h1]
    exact num_hundred_mul hden
  have hfmt := formatPrice_eval hden hpos
  have hnws : ∀ c ∈ renderNat (m / 100) ++ '.' :: pad2 (m % 100), c.isWhitespace = false := by
    intro c hc
    rcases List.mem_append.mp hc with hc | hc
    · exact isDigit_not_ws (renderNat_digits _ c hc)
    · rcases List.mem_cons.mp hc with rfl | hc
      · decide
      · exact isDigit_not_ws (pad2_digits c hc)
  have hsign : splitSign (renderNat (m / 100) ++ '.' :: pad2 (m % 100))
      = (false, renderNat (m / 100) ++ '.' :: pad2 (m % 100)) := by
    rcases hr : renderNat (m / 100) with _ | ⟨c, cs⟩
    · exact absurd hr (renderNat_ne_nil _)
    · have hc : c.isDigit = true := by
        have hd := renderNat_digits (m / 100) c
        rw [hr] at hd
        exact hd (List.mem_cons_self c cs)
      show splitSign (c :: (cs ++ '.' :: pad2 (m % 100))) = _
      have h1 : ¬(c = '-') := isDigit_ne hc (by decide)
      have h2 : ¬(c = '+') := isDigit_ne hc (by decide)
      simp [splitSign, h1, h2]
  have hsplit : splitOnChar '.' (renderNat (m / 100) ++ '.' :: pad2 (m % 100))
      = [renderNat (m / 100), pad2 (m % 100)] := by
    rw [splitOnChar_append, splitOnChar_sepFree]
    · exact fun c hc => isDigit_ne (pad2_digits c hc) (by decide)
    · exact fun c hc => isDigit_ne (renderNat_digits _ c hc) (by decide)
  have hmod : m % 100 < 100 := Nat.mod_lt _ (by omega)
  have hall : (renderNat (m / 100) ++ pad2 (m % 100)).all Char.isDigit = true := by
    simp only [List.all_eq_true]
    intro c hc
    rcases List.mem_append.mp hc with hc | hc
    · exact renderNat_digits _ c hc
    · exact pad2_digits c hc
  have hne : (renderNat (m / 100) ++ pad2 (m % 100)).isEmpty = false := by
    rcases hr : renderNat (m / 100) with _ | ⟨c, cs⟩
    · exact absurd hr (renderNat_ne_nil _)
    · rfl
  rw [hfmt]
  simp only [parseFloatChars, trimList_eq_self hnws, hsign, hsplit, hne, hall,
    Bool.not_false, Bool.and_self, if_true, if_false]
  rw [digitsVal_renderNat, digitsVal_pad2 hmod, pad2_length hmod]
  simp only [Bool.false_eq_true, if_false]
  congr 1
  have hq : ((m / 100 : ℕ) : ℚ) + ((m % 100 : ℕ) : ℚ) / 10 ^ 2 = ((m : ℕ) : ℚ) / 100 := by
    have h102 : ((10 : ℚ)) ^ 2 = 100 := by norm_num
    rw [h102]
    field_simp
    norm_cast
    omega
  rw [hq, hmp]
  ring

/-! ## Lemmas: CSV line round trip -/

theorem ne_of_pred {p : Char → Bool} {c d : Char} (h : p c = true)
    (hd : p d = false) : ¬(c = d) := by
  intro e; rw [e, hd] at h; cases h

theorem upper_not_ws {c : Char} (h : c.isUpper = true) : c.isWhitespace = false := by
  rcases hw : c.isWhitespace with _ | _
  · rfl
  · rcases ws_char_cases hw with rfl | rfl | rfl | rfl <;> exact absurd h (by decide)

theorem action_chars {a : String} (h : a = "buy" ∨ a = "sell") :
    ∀ c ∈ a.data, ¬(c = ',') ∧ c.isWhitespace = false := by
  rcases h with rfl | rfl <;> decide

theorem formatPrice_chars {p : ℚ} (hden : (100 * p).den = 1) (hpos : 0 ≤ p) :
    ∀ c ∈ formatPrice p, ¬(c = ',') ∧ c.isWhitespace = false := by
  rw [formatPrice_eval hden hpos]
  intro c hc
  rcases List.mem_append.mp hc with hc | hc
  · have hd := renderNat_digits _ c hc
    exact ⟨isDigit_ne hd (by decide), isDigit_not_ws hd⟩
  · rcases List.mem_cons.mp hc with rfl | hc
    · exact ⟨by decide, by decide⟩
    · have hd := pad2_digits c hc
      exact ⟨isDigit_ne hd (by decide), isDigit_not_ws hd⟩

theorem renderInt_chars (v : ℤ) :
    ∀ c ∈ renderInt v, ¬(c = ',') ∧ c.isWhitespace = false := by
  intro c hc
  unfold renderInt at hc
  have hdig : c.isDigit = true ∨ c = '-' := by
    split at hc
    · rcases List.mem_cons.mp hc with rfl | hc
      · exact Or.inr rfl
      · exact Or.inl (renderNat_digits _ c hc)
    · exact Or.inl (renderNat_digits _ c hc)
  rcases hdig with hd | rfl
  · exact ⟨isDigit_ne hd (by decide), isDigit_not_ws hd⟩
  · exact ⟨by decide, by decide⟩

theorem string_mk_data (s : String) : String.mk s.data = s := rfl

theorem to_csv_line_split {b : TradeBook} (ha : b.action = "buy" ∨ b.action = "sell")
    (hupper : ∀ ch ∈ b.stock_code.data, ch.isUpper = true)
    (hden : (100 * b.price).den = 1) (hpos : 0 ≤ b.price) :
    splitOnChar ',' (to_csv_line b).data
      = [b.action.data, b.stock_code.data, formatPrice b.price, renderInt b.volume] := by
  show splitOnChar ',' (b.action.data ++ ',' :: (b.stock_code.data ++ ',' ::
    (formatPrice b.price ++ ',' :: renderInt b.volume))) = _
  rw [splitOnChar_append (fun c hc => (action_chars ha c hc).1),
    splitOnChar_append (fun c hc => ne_of_pred (hupper c hc) (by decide)),
    splitOnChar_append (fun c hc => (formatPrice_chars hden hpos c hc).1),
    splitOnChar_sepFree (fun c hc => (renderInt_chars b.volume c hc).1)]

theorem to_csv_line_no_ws {b : TradeBook} (ha : b.action = "buy" ∨ b.action = "sell")
    (hupper : ∀ ch ∈ b.stock_code.data, ch.isUpper = true)
    (hden : (100 * b.price).den = 1) (hpos : 0 ≤ b.price) :
    ∀ c ∈ (to_csv_line b).data, c.isWhitespace = false := by
  intro c hc
  have hc' : c ∈ b.action.data ++ ',' :: (b.stock_code.data ++ ',' ::
      (formatPrice b.price ++ ',' :: renderInt b.volume)) := hc
  rcases List.mem_append.mp hc' with h | h
  · exact (action_chars ha c h).2
  · rcases List.mem_cons.mp h with rfl | h
    · decide
    · rcases List.mem_append.mp h with h | h
      · exact upper_not_ws (hupper c h)
      · rcases List.mem_cons.mp h with rfl | h
        · decide
        · rcases List.mem_append.mp h with h | h
          · exact (formatPrice_chars hden hpos c h).2
          · rcases List.mem_cons.mp h with rfl | h
            · decide
            · exact (renderInt_chars b.volume c h).2

theorem from_to_csv {b : TradeBook} (hb : ValidRecord b) :
    from_csv_line (to_csv_line b) = some b := by
  obtain ⟨ha, _, hupper, hpge, hden⟩ := hb
  have hpos : 0 ≤ b.price := le_trans (by norm_num) hpge
  unfold from_csv_line
  rw [trimList_eq_self (to_csv_line_no_ws ha hupper hden hpos),
    to_csv_line_split ha hupper hden hpos]
  simp only [parseFloatChars_formatPrice hden hpos, parseIntChars_renderInt]

theorem to_csv_line_ne_empty (b : TradeBook) : (to_csv_line b).data ≠ [] := by
  intro h
  have : ',' ∈ (to_csv_line b).data := by
    show ',' ∈ b.action.data ++ ',' :: _
    exact List.mem_append.mpr (Or.inr (List.mem_cons_self _ _))
  rw [h] at this
  cases this

/-! ## Lemmas: identity keys, find, bump, process -/

theorem tbEq_volume_irrel (x : TradeBook) (a c : String) (p : ℚ) (v : ℤ) :
    tbEq x ⟨a, c, p, v⟩ = tbEq x ⟨a, c, p, 0⟩ := rfl

theorem tbEq_key_self (a c : String) (p : ℚ) (v : ℤ) :
    tbEq ⟨a, c, p, v⟩ ⟨a, c, p, 0⟩ = true := by
  simp [tbEq]

theorem tbEq_self (b : TradeBook) : tbEq b b = true := by
  simp [tbEq]

theorem tbEq_bump_left (b y : TradeBook) (x : ℤ) :
    tbEq { b with volume := x } y = tbEq b y := rfl

theorem tbEq_bump_right (b y : TradeBook) (x : ℤ) :
    tbEq y { b with volume := x } = tbEq y b := rfl

theorem ValidRecord_bump (b : TradeBook) (x : ℤ) :
    ValidRecord { b with volume := x } ↔ ValidRecord b := Iff.rfl

theorem find_none_iff (books : List TradeBook) (a c : String) (p : ℚ) :
    find_trade_book books a c p = none ↔ ∀ b ∈ books, tbEq b ⟨a, c, p, 0⟩ = false := by
  unfold find_trade_book
  rw [List.find?_eq_none]
  constructor
  · intro h b hb
    exact Bool.not_eq_true _ ▸ Bool.eq_false_iff.mpr (h b hb)
  · intro h b hb
    rw [h b hb]
    exact Bool.false_ne_true

theorem bumpFirst_cons (b : TradeBook) (rest : List TradeBook) (a c : String)
    (p : ℚ) (v : ℤ) :
    bumpFirst (b :: rest) a c p v
      = if tbEq b ⟨a, c, p, 0⟩ = true then { b with volume := b.volume + v } :: rest
        else b :: bumpFirst rest a c p v := rfl

theorem bumpFirst_no_match {books : List TradeBook} {a c : String} {p : ℚ} (v : ℤ)
    (h : ∀ b ∈ books, tbEq b ⟨a, c, p, 0⟩ = false) :
    bumpFirst books a c p v = books := by
  induction books with
  | nil => rfl
  | cons b rest ih =>
    rw [bumpFirst_cons, if_neg, ih (fun x hx => h x (List.mem_cons_of_mem _ hx))]
    rw [h b (List.mem_cons_self b rest)]
    exact Bool.false_ne_true

theorem bumpFirst_append {books l : List TradeBook} {a c : String} {p : ℚ} (v : ℤ)
    (h : ∀ b ∈ books, tbEq b ⟨a, c, p, 0⟩ = false) :
    bumpFirst (books ++ l) a c p v = books ++ bumpFirst l a c p v := by
  induction books with
  | nil => rfl
  | cons b rest ih =>
    show bumpFirst (b :: (rest ++ l)) a c p v = _
    rw [bumpFirst_cons, if_neg, ih (fun x hx => h x (List.mem_cons_of_mem _ hx)),
      List.cons_append]
    rw [h b (List.mem_cons_self b rest)]
    exact Bool.false_ne_true

theorem bumpFirst_cons_match {b : TradeBook} {rest : List TradeBook} {a c : String}
    {p : ℚ} (v : ℤ) (h : tbEq b ⟨a, c, p, 0⟩ = true) :
    bumpFirst (b :: rest) a c p v = { b with volume := b.volume + v } :: rest := by
  rw [bumpFirst_cons, if_pos h]

theorem mem_bumpFirst {books : List TradeBook} {a c : String} {p : ℚ} {v : ℤ}
    {y : TradeBook} (hy : y ∈ bumpFirst books a c p v) :
    ∃ z ∈ books, y = z ∨ y = { z with volume := z.volume + v } := by
  induction books with
  | nil => cases hy
  | cons b rest ih =>
    unfold bumpFirst at hy
    split at hy
    · rcases List.mem_cons.mp hy with rfl | hy
      · exact ⟨b, List.mem_cons_self b rest, Or.inr rfl⟩
      · exact ⟨y, List.mem_cons_of_mem _ hy, Or.inl rfl⟩
    · rcases List.mem_cons.mp hy with rfl | hy
      · exact ⟨y, List.mem_cons_self _ _, Or.inl rfl⟩
      · rcases ih hy with ⟨z, hz, hyz⟩
        exact ⟨z, List.mem_cons_of_mem _ hz, hyz⟩

theorem process_trade_books_none {s : StoreState} {a c : String} {p : ℚ} (v : ℤ)
    (h : find_trade_book s.books a c p = none) :
    (process_trade s a c p v).2.books = s.books ++ [⟨a, c, p, v⟩] := by
  unfold process_trade
  rw [h]
  rfl

theorem process_trade_books_some {s : StoreState} {a c : String} {p : ℚ} (v : ℤ)
    {b : TradeBook} (h : find_trade_book s.books a c p = some b) :
    (process_trade s a c p v).2.books = bumpFirst s.books a c p v := by
  unfold process_trade
  rw [h]
  rfl

theorem process_trade_msg_none {s : StoreState} {a c : String} {p : ℚ} (v : ℤ)
    (h : find_trade_book s.books a c p = none) :
    (process_trade s a c p v).1 = "Trade book added." := by
  unfold process_trade
  rw [h]

theorem process_trade_msg_some {s : StoreState} {a c : String} {p : ℚ} (v : ℤ)
    {b : TradeBook} (h : find_trade_book s.books a c p = some b) :
    (process_trade s a c p v).1 = "Trade book updated." := by
  unfold process_trade
  rw [h]

theorem process_trade_file (s : StoreState) (a c : String) (p : ℚ) (v : ℤ) :
    (process_trade s a c p v).2.file = (process_trade s a c p v).2.books.map to_csv_line := by
  unfold process_trade
  rcases h : find_trade_book s.books a c p with _ | b <;> rfl

/-! ## Lemmas: invariant preservation -/

theorem nodup_bumpFirst {books : List TradeBook} {a c : String} {p : ℚ} (v : ℤ)
    (h : NoDupIdent books) : NoDupIdent (bumpFirst books a c p v) := by
  induction books with
  | nil => exact List.Pairwise.nil
  | cons b rest ih =>
    rcases List.pairwise_cons.mp h with ⟨hb, hrest⟩
    unfold bumpFirst
    split
    · exact List.pairwise_cons.mpr ⟨fun y hy => hb y hy, hrest⟩
    · refine List.pairwise_cons.mpr ⟨?_, ih hrest⟩
      intro y hy
      rcases mem_bumpFirst hy with ⟨z, hz, hyz | hyz⟩
      · rw [hyz]
        exact hb z hz
      · rw [hyz, tbEq_bump_right]
        exact hb z hz

theorem nodup_process_trade {s : StoreState} (a c : String) (p : ℚ) (v : ℤ)
    (h : NoDupIdent s.books) : NoDupIdent (process_trade s a c p v).2.books := by
  rcases hf : find_trade_book s.books a c p with _ | b
  · rw [process_trade_books_none v hf]
    unfold NoDupIdent
    rw [List.pairwise_append]
    refine ⟨h, List.pairwise_singleton _ _, ?_⟩
    intro x hx y hy
    rcases List.mem_singleton.mp hy with rfl
    rw [tbEq_volume_irrel]
    exact (find_none_iff s.books a c p).mp hf x hx
  · rw [process_trade_books_some v hf]
    exact nodup_bumpFirst v h

theorem nodup_applyOps (s : StoreState) (ops : List TradeBook)
    (h : NoDupIdent s.books) : NoDupIdent (applyOps s ops).books := by
  induction ops generalizing s with
  | nil => exact h
  | cons op rest ih =>
    exact ih _ (nodup_process_trade op.action op.stock_code op.price op.volume h)

theorem valid_bumpFirst {books : List TradeBook} {a c : String} {p : ℚ} {v : ℤ}
    (h : ∀ b ∈ books, ValidRecord b) :
    ∀ y ∈ bumpFirst books a c p v, ValidRecord y := by
  intro y hy
  rcases mem_bumpFirst hy with ⟨z, hz, hyz | hyz⟩
  · rw [hyz]
    exact h z hz
  · rw [hyz]
    exact (ValidRecord_bump z _).mpr (h z hz)

theorem valid_process_trade {s : StoreState} {a c : String} {p : ℚ} {v : ℤ}
    (h : ∀ b ∈ s.books, ValidRecord b) (hop : ValidRecord ⟨a, c, p, v⟩) :
    ∀ y ∈ (process_trade s a c p v).2.books, ValidRecord y := by
  rcases hf : find_trade_book s.books a c p with _ | b
  · rw [process_trade_books_none v hf]
    intro y hy
    rcases List.mem_append.mp hy with hy | hy
    · exact h y hy
    · rcases List.mem_singleton.mp hy with rfl
      exact hop
  · rw [process_trade_books_some v hf]
    exact valid_bumpFirst h

/-! ## Lemmas: loading back a saved store -/

theorem pyStrip_to_csv {b : TradeBook} (hb : ValidRecord b) :
    pyStrip (to_csv_line b) = to_csv_line b := by
  obtain ⟨ha, _, hupper, hpge, hden⟩ := hb
  have hpos : 0 ≤ b.price := le_trans (by norm_num) hpge
  unfold pyStrip
  rw [trimList_eq_self (to_csv_line_no_ws ha hupper hden hpos)]

theorem to_csv_ne_empty_str (b : TradeBook) : ¬(to_csv_line b = "") := by
  intro h
  exact to_csv_line_ne_empty b (congrArg String.data h)

theorem parseLines_map_to_csv {books : List TradeBook}
    (h : ∀ b ∈ books, ValidRecord b) :
    parseLines (books.map to_csv_line) = some books := by
  induction books with
  | nil => rfl
  | cons b rest ih =>
    have hb := h b (List.mem_cons_self b rest)
    show parseLines (to_csv_line b :: rest.map to_csv_line) = _
    unfold parseLines
    rw [pyStrip_to_csv hb, if_neg (to_csv_ne_empty_str b), from_to_csv hb,
      ih (fun x hx => h x (List.mem_cons_of_mem _ hx))]

theorem applyOps_file_sync {s : StoreState} (ops : List TradeBook)
    (h : s.file = s.books.map to_csv_line) :
    (applyOps s ops).file = (applyOps s ops).books.map to_csv_line := by
  induction ops generalizing s with
  | nil => exact h
  | cons op rest ih =>
    exact ih (process_trade_file s op.action op.stock_code op.price op.volume)

theorem applyOps_valid {s : StoreState} (ops : List TradeBook)
    (hs : ∀ b ∈ s.books, ValidRecord b) (hops : ∀ op ∈ ops, ValidRecord op) :
    ∀ b ∈ (applyOps s ops).books, ValidRecord b := by
  induction ops generalizing s with
  | nil => exact hs
  | cons op rest ih =>
    refine ih (valid_process_trade hs ?_) (fun x hx => hops x (List.mem_cons_of_mem _ hx))
    exact hops op (List.mem_cons_self op rest)

/-! ## Lemmas: validator -/

theorem upper_alpha {c : Char} (h : c.isUpper = true) : c.isAlpha = true := by
  simp [Char.isAlpha, h]

theorem py_upper_alpha_chars {s : String} (hup : py_isupper s = true)
    (hal : py_isalpha s = true) : ∀ ch ∈ s.data, ch.isUpper = true := by
  intro ch hch
  have h1 := List.all_eq_true.mp (Bool.and_eq_true_iff.mp hup).2 ch hch
  have h2 := List.all_eq_true.mp (Bool.and_eq_true_iff.mp hal).2 ch hch
  rcases Bool.or_eq_true_iff.mp h1 with h | h
  · rw [h2] at h; cases h
  · exact h

theorem chars_py_upper {s : String} (hne : s.data ≠ [])
    (h : ∀ ch ∈ s.data, ch.isUpper = true) :
    py_isupper s = true ∧ py_isalpha s = true := by
  rcases hd : s.data with _ | ⟨ch0, rest⟩
  · exact absurd hd hne
  have hch0 : ch0 ∈ s.data := hd ▸ List.mem_cons_self ch0 rest
  constructor
  · apply Bool.and_eq_true_iff.mpr
    constructor
    · exact List.any_eq_true.mpr ⟨ch0, hch0, upper_alpha (h ch0 hch0)⟩
    · apply List.all_eq_true.mpr
      intro ch hch
      rw [h ch hch]
      simp
  · apply Bool.and_eq_true_iff.mpr
    constructor
    · rw [hd]
      rfl
    · exact List.all_eq_true.mpr (fun ch hch => upper_alpha (h ch hch))

theorem data_ne_of_len {c : String} (h : c.length = 4) : c.data ≠ [] := by
  intro h0
  have : c.length = 0 := by
    show c.data.length = 0
    rw [h0]
    rfl
  omega

theorem validate_stock_code_iff (codes : List String) (c : String) :
    validate_stock_code codes c = true ↔
      c.length = 4 ∧ (∀ ch ∈ c.data, ch.isUpper = true) ∧ c ∈ codes := by
  unfold validate_stock_code is_valid_stock_code
  by_cases h1 : c.data.isEmpty = true ∨ c.length ≠ 4
  · rw [if_pos h1]
    constructor
    · intro h; cases h
    · rintro ⟨hlen, _, _⟩
      exfalso
      rcases h1 with h1 | h1
      · have := data_ne_of_len hlen
        rcases hd : c.data with _ | _
        · exact this hd
        · rw [hd] at h1; cases h1
      · exact h1 hlen
  · rw [if_neg h1]
    push_neg at h1
    obtain ⟨_, hlen4⟩ := h1
    have hne : c.data ≠ [] := data_ne_of_len hlen4
    by_cases h2 : ¬(py_isupper c = true) ∨ ¬(py_isalpha c = true)
    · rw [if_pos h2]
      constructor
      · intro h; cases h
      · rintro ⟨_, hup, _⟩
        exfalso
        obtain ⟨hu, ha⟩ := chars_py_upper hne hup
        rcases h2 with h2 | h2
        · exact h2 hu
        · exact h2 ha
    · rw [if_neg h2]
      push_neg at h2
      obtain ⟨hu, ha⟩ := h2
      constructor
      · intro h
        exact ⟨hlen4, py_upper_alpha_chars hu ha, List.elem_iff.mp h⟩
      · rintro ⟨_, _, hmem⟩
        exact List.elem_eq_true_of_mem hmem

theorem validate_trade_stock_code_msg {codes : List String} {a c : String}
    (p : ℚ) (v : ℤ) (ha : validate_action a = true)
    (hc : validate_stock_code codes c = false) :
    validate_trade codes a c p v = (false, stockCodeMsg) := by
  unfold validate_trade
  rw [ha, hc]
  rfl

theorem validate_price_two_dec {p : ℚ} (hge : (0.50 : ℚ) ≤ p)
    (hden : (100 * p).den = 1) : validate_price p = true := by
  unfold validate_price pyRound2
  rw [rhe_den_one hden]
  have h : ((100 * p).num : ℚ) / 100 = p := by
    rw [num_hundred_mul hden]; ring
  simp [hge, h]

theorem validate_price_bad_den {p : ℚ} (hden : (100 * p).den ≠ 1) :
    validate_price p = false := by
  unfold validate_price pyRound2
  have h : ¬((rhe (100 * p) : ℚ) / 100 = p) := by
    intro h
    apply hden
    have h2 : (100 : ℚ) * p = (rhe (100 * p) : ℚ) := by
      field_simp at h
      linarith
    rw [h2]
    exact Rat.den_intCast _
  simp [h]

/-! ## The claims -/

/-- **C4**: for every string `c`, `validate_stock_code c` returns true iff
`c` has length exactly 4, every character of `c` is an uppercase ASCII
letter, and `c` is a member of the loaded registry set; and whenever the
stock-code check fails (for a format or for a membership reason alike),
`validate_trade` returns the one fixed stock-code error message. -/
theorem claim_C4 (codes : List String) (c : String) :
    (validate_stock_code codes c = true ↔
      c.length = 4 ∧ (∀ ch ∈ c.data, ch.isUpper = true) ∧ c ∈ codes) ∧
    (∀ (a : String) (p : ℚ) (v : ℤ), validate_action a = true →
      validate_stock_code codes c = false →
      validate_trade codes a c p v = (false, stockCodeMsg)) :=
  ⟨validate_stock_code_iff codes c,
   fun _ p v ha hc => validate_trade_stock_code_msg p v ha hc⟩

/-- Witness for C4 at a concrete input: `"AAP1"` fails the format check
(digit in a 4-character code), and the validator reports the fixed
stock-code message. -/
theorem claim_C4_witness :
    validate_trade ["AAPL"] "buy" "AAP1" 1 1 = (false, stockCodeMsg) :=
  (claim_C4 ["AAPL"] "AAP1").2 "buy" 1 1 (by decide) (by decide)

/-- **C5**: `validate_price` accepts 0.50 and rejects 0.49 and every value
with more than two fractional decimal digits; `validate_volume` accepts 1
and 1,000,000 and rejects 0 and 1,000,001. -/
theorem claim_C5 :
    validate_price (0.50 : ℚ) = true ∧ validate_price (0.49 : ℚ) = false ∧
    (∀ p : ℚ, (100 * p).den ≠ 1 → validate_price p = false) ∧
    validate_volume 1 = true ∧ validate_volume 1000000 = true ∧
    validate_volume 0 = false ∧ validate_volume 1000001 = false := by
  refine ⟨?_, ?_, fun p hp => validate_price_bad_den hp, by decide, by decide,
    by decide, by decide⟩
  · apply validate_price_two_dec le_rfl
    rw [show (100 : ℚ) * 0.50 = ((50 : ℕ) : ℚ) by norm_num]
    simp
  · unfold validate_price
    have : ¬((0.50 : ℚ) ≤ 0.49) := by norm_num
    simp [this]

/-- Witness for C5's universal part at the concrete price 1.001 named by
the claim: it has three fractional digits and is rejected. -/
theorem claim_C5_witness :
    (100 * (1.001 : ℚ)).den ≠ 1 ∧ validate_price (1.001 : ℚ) = false := by
  have hden : (100 * (1.001 : ℚ)).den ≠ 1 := by
    rw [show (100 : ℚ) * 1.001 = (1001 : ℚ) / 10 by norm_num]
    intro h
    have hq : (((1001 : ℚ) / 10).num : ℚ) = (1001 : ℚ) / 10 :=
      (Rat.den_eq_one_iff _).mp h
    have hcast : ((((1001 : ℚ) / 10).num * 10 : ℤ) : ℚ) = ((1001 : ℤ) : ℚ) := by
      push_cast
      linarith [hq]
    have hZ : ((1001 : ℚ) / 10).num * 10 = 1001 := by exact_mod_cast hcast
    omega
  exact ⟨hden, claim_C5.2.2.1 (1.001 : ℚ) hden⟩

/-- **C7 counterexample**: an unreadable (present but not openable) source
is NOT degraded to an empty registry with a warning — the load is a fatal
uncaught error (`none`), because only `FileNotFoundError` is caught. -/
theorem claim_C7_cex :
    ¬(load_stock_codes FileSource.unreadable = some ([], true)) := by
  simp [load_stock_codes]

/-- **C7 (amended)**: if the registry source is missing, the registry loads
as the empty set with a warning-level signal (not a fatal error), and every
subsequent `is_valid_stock_code` query on it returns false. -/
theorem claim_C7_amended :
    load_stock_codes FileSource.missing = some ([], true) ∧
    (∀ c, is_valid_stock_code [] c = false) :=
  ⟨rfl, fun _ => rfl⟩

/-- **C1**: for a valid trade identity `(a, c, p)` and a store with no
record of that identity, processing volume `v1` and then `v2` reports
"added" then "updated" and leaves exactly one record of that identity,
holding volume `v1 + v2`. -/
theorem claim_C1 (codes : List String) (s : StoreState) (a c : String) (p : ℚ)
    (v1 v2 : ℤ) (_ha : validate_action a = true)
    (_hc : validate_stock_code codes c = true) (_hp : validate_price p = true)
    (hfind : find_trade_book s.books a c p = none) :
    (process_trade s a c p v1).1 = "Trade book added." ∧
    (process_trade (process_trade s a c p v1).2 a c p v2).1 = "Trade book updated." ∧
    (process_trade (process_trade s a c p v1).2 a c p v2).2.books.filter
      (fun b => tbEq b ⟨a, c, p, 0⟩) = [⟨a, c, p, v1 + v2⟩] := by
  have hkey := (find_none_iff s.books a c p).mp hfind
  have hb1 : (process_trade s a c p v1).2.books = s.books ++ [⟨a, c, p, v1⟩] :=
    process_trade_books_none v1 hfind
  have hfind2 : find_trade_book (process_trade s a c p v1).2.books a c p
      = some ⟨a, c, p, v1⟩ := by
    rw [hb1]
    unfold find_trade_book
    rw [List.find?_append]
    have h0 : s.books.find? (fun b => tbEq b ⟨a, c, p, 0⟩) = none := hfind
    rw [h0, Option.none_or]
    simp [List.find?_cons, tbEq_key_self]
  refine ⟨process_trade_msg_none v1 hfind, process_trade_msg_some v2 hfind2, ?_⟩
  have hb2 := process_trade_books_some v2 hfind2
  rw [hb2, hb1, bumpFirst_append v2 hkey, bumpFirst_cons_match v2 (tbEq_key_self a c p v1)]
  have hnil : List.filter (fun b => tbEq b ⟨a, c, p, 0⟩) s.books = [] :=
    List.filter_eq_nil_iff.mpr (fun b hb hptrue => by rw [hkey b hb] at hptrue; cases hptrue)
  rw [List.filter_append, hnil]
  simp [List.filter_cons, tbEq_key_self]

/-- Witness for C1 at a concrete run: registry `{AAPL}`, empty store,
`buy AAPL 150.00` twice with volumes 100 and 50 gives "added" then
"updated" and one stored record with volume 150. -/
theorem claim_C1_witness :
    (process_trade ⟨[], []⟩ "buy" "AAPL" 150 100).1 = "Trade book added." ∧
    (process_trade (process_trade ⟨[], []⟩ "buy" "AAPL" 150 100).2
      "buy" "AAPL" 150 50).1 = "Trade book updated." ∧
    (process_trade (process_trade ⟨[], []⟩ "buy" "AAPL" 150 100).2
      "buy" "AAPL" 150 50).2.books.filter
        (fun b => tbEq b ⟨"buy", "AAPL", 150, 0⟩) = [⟨"buy", "AAPL", 150, 100 + 50⟩] :=
  claim_C1 ["AAPL"] ⟨[], []⟩ "buy" "AAPL" 150 100 50 (by decide) (by decide)
    (validate_price_two_dec (by norm_num)
      (by rw [show (100 : ℚ) * 150 = ((15000 : ℕ) : ℚ) by norm_num]; simp))
    rfl

/-- **C2 counterexample**: the claim quantifies over every sequence of
`load` and `process_trade` operations, but `load_trade_books` does not
deduplicate: loading a source whose two lines carry the same identity
yields a store holding two records with equal identity keys. -/
theorem claim_C2_cex :
    load_trade_books (.present ["buy,AAPL,1.00,10", "buy,AAPL,1.00,10"])
      = some [⟨"buy", "AAPL", 1, 10⟩, ⟨"buy", "AAPL", 1, 10⟩] ∧
    ¬ NoDupIdent [(⟨"buy", "AAPL", 1, 10⟩ : TradeBook), ⟨"buy", "AAPL", 1, 10⟩] := by
  constructor
  · simp [load_trade_books, parseLines, pyStrip, trimList, from_csv_line, splitOnChar,
      parseFloatChars, parseIntChars, splitSign, digitsVal]
  · intro h
    have h0 := List.pairwise_cons.mp h
    have h1 := h0.1 _ (List.mem_cons_self _ _)
    rw [tbEq_self] at h1
    cases h1

/-- **C2 (amended)**: `process_trade` preserves the
at-most-one-record-per-identity invariant, so every store state reached
from a deduplicated state (in particular from an empty store, or from a
load of a duplicate-free file) by any sequence of `process_trade` calls has
at most one record per `(action, stockCode, price)` identity.  `load` of a
source with duplicate identities, however, violates it (see the
counterexample). -/
theorem claim_C2_amended (s : StoreState) (ops : List TradeBook)
    (h : NoDupIdent s.books) : NoDupIdent (applyOps s ops).books :=
  nodup_applyOps s ops h

/-- Witness for the amended C2: two same-identity orders processed on an
empty store keep the invariant (they merge). -/
theorem claim_C2_amended_witness :
    NoDupIdent (applyOps ⟨[], []⟩
      [⟨"buy", "AAPL", 1, 10⟩, ⟨"buy", "AAPL", 1, 10⟩]).books :=
  claim_C2_amended ⟨[], []⟩ _ List.Pairwise.nil

/-- **C3**: immediately after every `process_trade` call, the persisted
file equals the CSV serialization of the in-memory record list, one line
per record in collection order — the save runs synchronously in both the
update and the append branch. -/
theorem claim_C3 (s : StoreState) (a c : String) (p : ℚ) (v : ℤ) :
    (process_trade s a c p v).2.file
      = (process_trade s a c p v).2.books.map to_csv_line :=
  process_trade_file s a c p v

/-- **C10**: `process_trade` with a matching record changes only the first
matching record, and only its volume field (raised by `v`), leaving every
other record and all positions unchanged; with no matching record it
appends the new record at the end and leaves the rest unchanged. -/
theorem claim_C10 (s : StoreState) (a c : String) (p : ℚ) (v : ℤ) :
    (∀ b, find_trade_book s.books a c p = some b →
      ∃ pre post, s.books = pre ++ b :: post ∧
        (∀ x ∈ pre, tbEq x ⟨a, c, p, 0⟩ = false) ∧ tbEq b ⟨a, c, p, 0⟩ = true ∧
        (process_trade s a c p v).2.books
          = pre ++ { b with volume := b.volume + v } :: post) ∧
    (find_trade_book s.books a c p = none →
      (process_trade s a c p v).2.books = s.books ++ [⟨a, c, p, v⟩]) := by
  constructor
  · intro b hb
    have hfs : s.books.find? (fun x => tbEq x ⟨a, c, p, 0⟩) = some b := hb
    rcases List.find?_eq_some.mp hfs with ⟨hpb, pre, post, hsplit, hpre⟩
    have hpre' : ∀ x ∈ pre, tbEq x ⟨a, c, p, 0⟩ = false := by
      intro x hx
      have := hpre x hx
      rcases hx2 : tbEq x ⟨a, c, p, 0⟩ with _ | _
      · rfl
      · rw [hx2] at this; cases this
    refine ⟨pre, post, hsplit, hpre', hpb, ?_⟩
    rw [process_trade_books_some v hb, hsplit, bumpFirst_append v hpre',
      bumpFirst_cons_match v hpb]
  · intro hnone
    exact process_trade_books_none v hnone

/-- Witness for C10: on a store holding one `buy AAPL 1.00` record of
volume 10, processing 5 more bumps only that record's volume; on an empty
store the record is appended. -/
theorem claim_C10_witness :
    (∃ pre post,
      ([⟨"buy", "AAPL", 1, 10⟩] : List TradeBook)
        = pre ++ (⟨"buy", "AAPL", 1, 10⟩ : TradeBook) :: post ∧
      (∀ x ∈ pre, tbEq x ⟨"buy", "AAPL", 1, 0⟩ = false) ∧
      tbEq (⟨"buy", "AAPL", 1, 10⟩ : TradeBook) ⟨"buy", "AAPL", 1, 0⟩ = true ∧
      (process_trade ⟨[⟨"buy", "AAPL", 1, 10⟩], []⟩ "buy" "AAPL" 1 5).2.books
        = pre ++ ({ (⟨"buy", "AAPL", 1, 10⟩ : TradeBook) with
            volume := (⟨"buy", "AAPL", 1, 10⟩ : TradeBook).volume + 5 } : TradeBook) :: post) ∧
    (process_trade ⟨[], []⟩ "buy" "AAPL" 1 5).2.books
      = ([] : List TradeBook) ++ [⟨"buy", "AAPL", 1, 5⟩] :=
  ⟨(claim_C10 ⟨[⟨"buy", "AAPL", 1, 10⟩], []⟩ "buy" "AAPL" 1 5).1
      ⟨"buy", "AAPL", 1, 10⟩ (by decide),
   (claim_C10 ⟨[], []⟩ "buy" "AAPL" 1 5).2 rfl⟩

/-- **C6**: a command rejected before the store call — wrong token count,
unparsable price or volume token, or any validation failure — leaves the
whole system state (registry, in-memory records and persisted file)
unchanged; and no `process_command` path ever mutates the registry. -/
theorem claim_C6 (st : SysState) (command : String) :
    (command_accepted st command = false → (process_command st command).2 = st) ∧
    (process_command st command).2.codes = st.codes := by
  unfold process_command command_accepted
  constructor
  · split
    all_goals try exact fun _ => rfl
    split
    all_goals try exact fun _ => rfl
    split
    all_goals try exact fun _ => rfl
    intro hrej
    rename_i snd heq
    rw [heq] at hrej
    simp at hrej
  · split
    all_goals try rfl
    split
    all_goals try rfl
    split
    all_goals rfl

/-- Witness for C6 at a concrete rejected command (three tokens): the
state is unchanged. -/
theorem claim_C6_witness :
    (process_command ⟨["AAPL"], ⟨[], []⟩⟩ "buy AAPL 100.00").2
      = ⟨["AAPL"], ⟨[], []⟩⟩ :=
  (claim_C6 ⟨["AAPL"], ⟨[], []⟩⟩ "buy AAPL 100.00").1 rfl

/-- **C8**: the trade book load parses each non-empty line as a CSV record
and is fatal (an uncaught error) as soon as any non-empty line fails to
parse — wrong field count or non-numeric price/volume; a missing orders
file yields the empty collection without an error. -/
theorem claim_C8 :
    (∀ (lines : List String) (l : String), l ∈ lines → pyStrip l ≠ "" →
      from_csv_line (pyStrip l) = none →
      load_trade_books (.present lines) = none) ∧
    load_trade_books .missing = some [] := by
  refine ⟨?_, rfl⟩
  intro lines l hmem hne hbad
  show parseLines lines = none
  induction lines with
  | nil => cases hmem
  | cons l0 rest ih =>
    rcases List.mem_cons.mp hmem with rfl | hmem'
    · simp only [parseLines, if_neg hne, hbad]
    · by_cases h0 : pyStrip l0 = ""
      · simp only [parseLines, if_pos h0]
        exact ih hmem'
      · simp only [parseLines, if_neg h0, ih hmem']
        rcases from_csv_line (pyStrip l0) with _ | b <;> rfl

/-- Witness for C8 at a concrete malformed line (three fields instead of
four): the whole load fails. -/
theorem claim_C8_witness :
    pyStrip "buy,AAPL,1.00" ≠ "" ∧
    from_csv_line (pyStrip "buy,AAPL,1.00") = none ∧
    load_trade_books (.present ["buy,AAPL,1.00"]) = none :=
  ⟨by decide, by decide,
   claim_C8.1 ["buy,AAPL,1.00"] "buy,AAPL,1.00" (List.mem_cons_self _ _)
     (by decide) (by decide)⟩

/-- **C9**: serializing a trade record of the data model (valid action,
code and price; any integer volume) to its CSV line and parsing it back
yields the identical record; consequently, after any sequence of
`process_trade` calls with data-model-valid arguments on an in-sync store
of valid records, reloading from the persisted destination reproduces
exactly the stored records with their volumes. -/
theorem claim_C9 :
    (∀ b : TradeBook, ValidRecord b → from_csv_line (to_csv_line b) = some b) ∧
    (∀ (s : StoreState) (ops : List TradeBook),
      (∀ b ∈ s.books, ValidRecord b) → s.file = s.books.map to_csv_line →
      (∀ op ∈ ops, ValidRecord op) →
      load_trade_books (.present (applyOps s ops).file)
        = some (applyOps s ops).books) := by
  refine ⟨fun b hb => from_to_csv hb, ?_⟩
  intro s ops hbooks hfile hops
  rw [applyOps_file_sync ops hfile]
  show parseLines ((applyOps s ops).books.map to_csv_line) = _
  exact parseLines_map_to_csv (applyOps_valid ops hbooks hops)

/-- Witness for C9: starting from the empty store, processing
`buy AAPL 150.00` with volumes 100 and then 50 and reloading the saved
file reproduces the stored records. -/
theorem claim_C9_witness :
    load_trade_books (.present (applyOps ⟨[], []⟩
        [⟨"buy", "AAPL", 150, 100⟩, ⟨"buy", "AAPL", 150, 50⟩]).file)
      = some (applyOps ⟨[], []⟩
        [⟨"buy", "AAPL", 150, 100⟩, ⟨"buy", "AAPL", 150, 50⟩]).books := by
  have hvr : ValidRecord ⟨"buy", "AAPL", 150, 100⟩ := by
    refine ⟨Or.inl rfl, rfl, by decide, by norm_num, ?_⟩
    rw [show (100 : ℚ) * 150 = ((15000 : ℕ) : ℚ) by norm_num]
    simp
  have hvr2 : ValidRecord ⟨"buy", "AAPL", 150, 50⟩ :=
    (ValidRecord_bump ⟨"buy", "AAPL", 150, 100⟩ 50).mpr hvr
  refine claim_C9.2 ⟨[], []⟩ _ (fun b hb => absurd hb (List.not_mem_nil b)) rfl ?_
  intro op hop
  rcases List.mem_cons.mp hop with rfl | hop
  · exact hvr
  · rcases List.mem_cons.mp hop with rfl | hop
    · exact hvr2
    · cases hop

end Stockbroker
